import Mathlib

/-!
Verification of the streaming/batched beam-search decoding core of the
espnet repository against its natural-language specification.

The embedding covers:
* `espnet/nets/batch_beam_search_online.py` (class `BatchBeamSearchOnline`):
  `score_full`, `forward`, `process_one_block`, `assemble_hyps`;
* `espnet/nets/pytorch_backend/transducer/search.py`:
  `default_beam_search`, `time_sync_decoding`, `align_length_sync_decoding`,
  `nsc_beam_search`, `search_interface`.

Numerical black boxes (the decoder forward pass, joint network, language
model, `np.logaddexp`) are parameters of the embedding, as the spec treats
them as opaque collaborators.  Scores are rationals; Python's stable
`sorted(..., reverse=True)` is modelled by insertion sort with a
non-strict comparison, which has the same stability behaviour.
-/

namespace Espnet

/-- Python exceptions that the embedded code can raise, plus a `fuelOut`
marker used when a `while` loop is modelled with explicit fuel. -/
inductive PyErr where
  | nameError
  | attributeError
  | valueError
  | notImplementedError
  | fuelOut
  deriving DecidableEq, Repr

/-- Python's stable `sorted(l, key=key, reverse=True)`: insertion sort that
puts `a` before `b` iff `key b ≤ key a`; on ties the earlier element stays
first, which is exactly CPython's stability guarantee. -/
def sortDescBy {α : Type} (key : α → ℚ) (l : List α) : List α :=
  l.insertionSort (fun a b => key b ≤ key a)

/-! ## Online beam search: `espnet/nets/batch_beam_search_online.py` -/

/-- A (non-batched) hypothesis of `espnet/nets/beam_search.py` as the online
engine returns it: output token sequence and cumulative score.  The
`scores`/`states` maps of the source record are opaque per-scorer data that
none of the embedded control flow reads (the source only logs `scores`), so
they are omitted here. -/
structure OHyp where
  yseq : List ℕ
  score : ℚ
  deriving DecidableEq, Repr

/-- `BatchBeamSearchOnline.assemble_hyps` (lines 227-256).  The ended
hypotheses are sorted by score, descending and stable.  When the sorted list
is empty, the source evaluates
`[] if minlenratio < 0.1 else self.forward(x, maxlenratio, max(0.0, minlenratio - 0.1))`;
the names `minlenratio`, `x` and `maxlenratio` are parameters of `forward`,
not of `assemble_hyps`, and are bound in no enclosing scope of this method,
so CPython raises `NameError` on the first of them before any retry can
happen. -/
def assemble_hyps (ended_hyps : List OHyp) : Except PyErr (List OHyp) :=
  let nbest_hyps := sortDescBy (fun h => h.score) ended_hyps
  if nbest_hyps.length = 0 then
    Except.error PyErr.nameError
  else
    Except.ok nbest_hyps

/-- The batched hypothesis set `BatchHypothesis` of the parent class
`espnet/nets/batch_beam_search.py`.  Modelled from the spec: the parent
module is not under src/; §3 of the spec describes it as a
structure-of-arrays view in which row `i` of every parallel array (padded
token sequence, valid length, score) refers to the same logical hypothesis.
The per-scorer `states`/`scores` arrays are opaque to the embedded control
flow and omitted. -/
structure BatchHyps where
  yseq : List (List ℕ)
  length : List ℕ
  score : List ℚ
  deriving DecidableEq, Repr

/-- Number of rows, Python's `len(batch_hypothesis)`. -/
def BatchHyps.nrows (b : BatchHyps) : ℕ := b.length.length

/-- `best.yseq[i, best.length[i] - 1] == self.eos` (lines 165-167): row `i`
ends in the end-of-sequence token. -/
def isLocalEos (eos : ℕ) (best : BatchHyps) (i : ℕ) : Bool :=
  decide ((best.yseq.getD i []).getD (best.length.getD i 0 - 1) 0 = eos)

/-- `self._select(best, i)` of the parent class.  Modelled from the spec:
row `i` of the parallel arrays is one logical hypothesis, so selecting it
yields the row's sequence truncated to its valid length together with the
row's score. -/
def selectHyp (best : BatchHyps) (i : ℕ) : OHyp :=
  { yseq := (best.yseq.getD i []).take (best.length.getD i 0),
    score := best.score.getD i 0 }

/-- The repetition condition that the spec's repetition guard describes (and
that the commented-out source lines 182-187 would test): the most recent
token of row `i` equals some earlier token of the same sequence. -/
def hasRepeatRow (best : BatchHyps) (i : ℕ) : Bool :=
  let row := best.yseq.getD i []
  let n := best.length.getD i 0
  decide (row.getD (n - 1) 0 ∈ row.take (n - 1))

/-- The loop of lines 169-188 of `process_one_block`: collect the rows that
just emitted EOS into `local_ended_hyps` and carry the `prev_repeat` flag.
The flag is initialised to `False` (line 169); the only assignment that
could set it (lines 182-187) is commented out in the source, so the fold
returns it unchanged. -/
def scanLocalEnded (eos : ℕ) (best : BatchHyps) : List OHyp × Bool :=
  (List.range best.yseq.length).foldl
    (fun acc i =>
      if isLocalEos eos best i then (acc.1 ++ [selectHyp best i], acc.2)
      else (acc.1, acc.2))
    ([], false)

/-- Mutable per-session fields of `BatchBeamSearchOnline` that
`process_one_block` reads and writes.  `prev_hyps` is `[]` (modelled as
`none`) or a batched hypothesis set. -/
structure PobState where
  running_hyps : BatchHyps
  prev_hyps : Option BatchHyps
  ended_hyps : List OHyp
  process_idx : ℕ
  deriving DecidableEq, Repr

/-- `len(self.prev_hyps)`: 0 for the empty list, the number of rows for a
batched set. -/
def lenPrev : Option BatchHyps → ℕ
  | none => 0
  | some b => b.nrows

/-- The opaque collaborators the online engine calls: the parent-class
batched `search` step and `post_process`, `init_hyp`, the `end_detect`
heuristic of `e2e_asr_common.py`, and the scorer `extend_prob`/`extend_state`
hooks (method `extend`).  All of them live outside src/ and the spec treats
them as the external scorer-ensemble contract, so they are parameters of the
embedding.  `post_process` returns the new running set together with the
(possibly extended) ended list, mirroring its in-place mutation of
`ended_hyps`. -/
structure OnlineEnv where
  search : BatchHyps → List ℕ → BatchHyps
  post_process : ℕ → ℕ → ℚ → BatchHyps → List OHyp → BatchHyps × List OHyp
  init_hyp : List ℕ → BatchHyps
  end_detect : List OHyp → ℕ → Bool
  extend : List ℕ → BatchHyps → BatchHyps
  reset_decoder_states : BatchHyps → BatchHyps
  eos : ℕ

/-- Outcome of one iteration of the `while self.process_idx < maxlen` loop
(lines 154-214): a `return` out of the method, a `break` out of the loop
(distinguished by which `break` fired), or falling through to the next
iteration. -/
inductive StepOut where
  | ret (r : Except PyErr (List OHyp)) (st : PobState)
  | breakRepeat (st : PobState)
  | breakEnded (st : PobState)
  | next (st : PobState)
  deriving Repr

/-- `true` exactly for the `break` caused by the repetition flag
(line 188). -/
def StepOut.isRepeatBreak : StepOut → Bool
  | StepOut.breakRepeat _ => true
  | _ => false

/-- One iteration of the `while self.process_idx < maxlen` loop of
`process_one_block` (lines 154-214), entered with the guard already known
to hold. -/
def pob_body (env : OnlineEnv) (h : List ℕ) (maxlen : ℕ) (maxlenratio : ℚ)
    (is_final : Bool) (st : PobState) : StepOut :=
  let best := env.search st.running_hyps h
  -- lines 158-162: at the last position, end decoding via post_process
  let re :=
    if st.process_idx = maxlen - 1 then
      env.post_process st.process_idx maxlen maxlenratio best st.ended_hyps
    else (st.running_hyps, st.ended_hyps)
  let rh1 := re.1
  let eh1 := re.2
  let les := scanLocalEnded env.eos best
  let local_ended_hyps := les.1
  let prev_repeat := les.2
  if prev_repeat then
    StepOut.breakRepeat { st with running_hyps := rh1, ended_hyps := eh1 }
  else if is_final ∧ maxlenratio = 0 ∧ env.end_detect eh1 st.process_idx then
    -- lines 190-194: end detected, return the assembled hypotheses
    StepOut.ret (assemble_hyps eh1) { st with running_hyps := rh1, ended_hyps := eh1 }
  else if 0 < local_ended_hyps.length ∧ is_final = false then
    -- lines 196-197: a hypothesis ended mid-stream, wait for more input
    StepOut.breakEnded { st with running_hyps := rh1, ended_hyps := eh1 }
  else
    -- lines 199-206
    let prev' := some rh1
    let re2 := env.post_process st.process_idx maxlen maxlenratio best eh1
    let rh2 := re2.1
    let eh2 := re2.2
    let eh3 := if is_final then eh2 ++ local_ended_hyps else eh2
    if rh2.nrows = 0 then
      -- lines 208-210: no hypothesis left, finish decoding
      StepOut.ret (assemble_hyps eh3)
        { running_hyps := rh2, prev_hyps := prev', ended_hyps := eh3,
          process_idx := st.process_idx }
    else
      StepOut.next
        { running_hyps := rh2, prev_hyps := prev', ended_hyps := eh3,
          process_idx := st.process_idx + 1 }

/-- The `while self.process_idx < maxlen` loop, driven by explicit fuel
(the loop performs at most `maxlen - process_idx` iterations, so any fuel at
least that large is enough; exhausted fuel is reported as `fuelOut`).  The
result's first component is `some r` when the loop `return`ed `r`, `none`
when it was left by the guard or a `break`. -/
def pob_loop (env : OnlineEnv) (h : List ℕ) (maxlen : ℕ) (maxlenratio : ℚ)
    (is_final : Bool) : ℕ → PobState → Except PyErr (Option (List OHyp) × PobState)
  | fuel, st =>
    if st.process_idx < maxlen then
      match fuel with
      | 0 => Except.error PyErr.fuelOut
      | fuel' + 1 =>
        match pob_body env h maxlen maxlenratio is_final st with
        | StepOut.ret (Except.error e) _ => Except.error e
        | StepOut.ret (Except.ok r) st' => Except.ok (some r, st')
        | StepOut.breakRepeat st' => Except.ok (none, st')
        | StepOut.breakEnded st' => Except.ok (none, st')
        | StepOut.next st' => pob_loop env h maxlen maxlenratio is_final fuel' st'
    else Except.ok (none, st)

/-- `BatchBeamSearchOnline.process_one_block` (lines 150-225).  Returns
`some nbest` when the method returns a result list, `none` for the
streaming `return None` (wait for more input), together with the updated
session fields. -/
def process_one_block (env : OnlineEnv) (h : List ℕ) (is_final : Bool)
    (maxlen : ℕ) (maxlenratio : ℚ) (fuel : ℕ) (st0 : PobState) :
    Except PyErr (Option (List OHyp) × PobState) :=
  -- line 152: extend states for ctc
  let st := { st0 with running_hyps := env.extend h st0.running_hyps }
  match pob_loop env h maxlen maxlenratio is_final fuel st with
  | Except.error e => Except.error e
  | Except.ok (some r, st') => Except.ok (some r, st')
  | Except.ok (none, st') =>
    if is_final then
      -- line 216-217
      match assemble_hyps st'.ended_hyps with
      | Except.error e => Except.error e
      | Except.ok r => Except.ok (some r, st')
    else
      -- lines 219-225: roll back to the previous hypotheses and wait
      if 1 < st'.process_idx ∧ 0 < lenPrev st'.prev_hyps then
        Except.ok (none,
          { st' with
            running_hyps := st'.prev_hyps.getD st'.running_hyps,
            process_idx := st'.process_idx - 1,
            prev_hyps := none })
      else Except.ok (none, st')

/-- Whole-session fields of `BatchBeamSearchOnline` (`reset`, lines 52-59). -/
structure OnlineState where
  encbuffer : Option (List ℕ)
  running_hyps : Option BatchHyps
  prev_hyps : Option BatchHyps
  ended_hyps : List OHyp
  processed_block : ℕ
  process_idx : ℕ
  deriving DecidableEq, Repr

/-- The state `reset` (lines 52-59) establishes. -/
def resetState : OnlineState :=
  { encbuffer := none, running_hyps := none, prev_hyps := none,
    ended_hyps := [], processed_block := 0, process_idx := 0 }

/-- Constructor defaults of `BatchBeamSearchOnline.__init__` that `forward`
reads (lines 33-37, 49). -/
structure OnlineCfg where
  block_size : ℕ
  hop_size : ℕ
  look_ahead : ℕ
  encoded_feat_length_limit : ℕ
  deriving DecidableEq, Repr

/-- `block_size=40, hop_size=16, look_ahead=16, encoded_feat_length_limit=0`
(lines 33-37). -/
def defaultOnlineCfg : OnlineCfg :=
  { block_size := 40, hop_size := 16, look_ahead := 16,
    encoded_feat_length_limit := 0 }

/-- The length bound of `forward` (lines 116-121): when `maxlenratio == 0`
the source takes `maxlen = x.shape[0]` directly; the `max(1, ...)` floor is
applied only in the nonzero-ratio branch.  `int(...)` truncation is floor
for the non-negative values a ratio can produce. -/
def forwardMaxlen (maxlenratio : ℚ) (enc_len : ℕ) : ℕ :=
  if maxlenratio = 0 then enc_len
  else max 1 (Int.toNat (Int.floor (maxlenratio * enc_len)))

/-- One block of `forward`'s `while True` body (lines 139-148): optional
truncation of the visible encoder output to `encoded_feat_length_limit`
(which also resets the running hypotheses' decoder states, line 141), lazy
initialisation of `running_hyps`, then `process_one_block`. -/
def forward_block (env : OnlineEnv) (cfg : OnlineCfg) (h0 : List ℕ)
    (block_is_final : Bool) (maxlen : ℕ) (maxlenratio : ℚ)
    (st : OnlineState) : Except PyErr (Option (List OHyp) × OnlineState) :=
  let truncate : Bool :=
    decide (0 < cfg.encoded_feat_length_limit) &&
      decide (cfg.encoded_feat_length_limit < h0.length)
  let h := if truncate then h0.drop (h0.length - cfg.encoded_feat_length_limit) else h0
  let rh0 := if truncate then st.running_hyps.map env.reset_decoder_states
             else st.running_hyps
  let rh := match rh0 with
            | none => env.init_hyp h
            | some b => b
  match process_one_block env h block_is_final maxlen maxlenratio maxlen
      { running_hyps := rh, prev_hyps := st.prev_hyps,
        ended_hyps := st.ended_hyps, process_idx := st.process_idx } with
  | Except.error e => Except.error e
  | Except.ok (r, pst) =>
    Except.ok (r,
      { st with
        running_hyps := some pst.running_hyps,
        prev_hyps := pst.prev_hyps,
        ended_hyps := pst.ended_hyps,
        process_idx := pst.process_idx,
        processed_block := st.processed_block + 1 })

/-- The `while True` loop of `forward` (lines 126-148), with fuel bounding
the number of blocks.  A non-final call leaves the loop by the `break` of
line 137 and returns `None`; the per-block result of a non-final block is
discarded, exactly as in the source. -/
def forward_loop (env : OnlineEnv) (cfg : OnlineCfg) (x : List ℕ)
    (maxlen : ℕ) (maxlenratio : ℚ) (is_final : Bool) :
    ℕ → OnlineState → Except PyErr (Option (List OHyp) × OnlineState)
  | 0, _ => Except.error PyErr.fuelOut
  | fuel + 1, st =>
    let cur_end_frame : ℤ :=
      (cfg.block_size : ℤ) - cfg.look_ahead + cfg.hop_size * st.processed_block
    if cur_end_frame < (x.length : ℤ) then
      match forward_block env cfg (x.take cur_end_frame.toNat) false
          maxlen maxlenratio st with
      | Except.error e => Except.error e
      | Except.ok (_r, st') => forward_loop env cfg x maxlen maxlenratio is_final fuel st'
    else if is_final then
      match forward_block env cfg x true maxlen maxlenratio st with
      | Except.error e => Except.error e
      | Except.ok (r, st') => Except.ok (r, st')
    else
      -- line 137: break; the method then implicitly returns None
      Except.ok (none, st)

/-- `BatchBeamSearchOnline.forward` (lines 89-148): append the new chunk to
the encoder buffer, derive the length bounds, and run the block loop.
`minlen` (line 121) is computed and logged by the source but never used by
this subclass, so it does not appear in the control flow. -/
def forward (env : OnlineEnv) (cfg : OnlineCfg) (xNew : List ℕ)
    (maxlenratio minlenratio : ℚ) (is_final : Bool) (fuel : ℕ)
    (st : OnlineState) : Except PyErr (Option (List OHyp) × OnlineState) :=
  let x := match st.encbuffer with
           | none => xNew
           | some b => b ++ xNew
  let st1 := { st with encbuffer := some x }
  let maxlen := forwardMaxlen maxlenratio x.length
  forward_loop env cfg x maxlen maxlenratio is_final fuel st1

/-- The attribute-dependent names of `score_full`'s truncation branch
(lines 80-84): `self.len` and `self.decoder_text_length_oimit` are looked
up on the instance at call time.  `__init__`/`reset` (lines 28-59) assign
neither name; the parent classes are not under src/ — modelled from the
spec, whose configuration surface (§6) and data model (§3) name no such
member — so the intended attribute environment has both absent (`none`).
Keeping them as `Option` fields lets the theorem state exactly which
absences force the exception. -/
structure SelfAttrs where
  len : Option (List (List ℕ) → ℕ)
  decoder_text_length_oimit : Option ℕ

/-- `BatchBeamSearchOnline.score_full` (lines 61-87), reduced to its
exception behaviour: the per-scorer `batch_score` results are opaque, so
the embedding records only whether the loop of lines 80-86 completes.  For
each full scorer the guard first evaluates `self.decoder_text_length_limit > 0`,
then calls `self.len(hyp.yseq)` — an attribute lookup — and, inside the
truncation branch, reads `self.decoder_text_length_oimit`. -/
def score_full (attrs : SelfAttrs) (full_scorers : List String)
    (decoder_text_length_limit : ℕ) (hyp : BatchHyps) : Except PyErr Unit :=
  full_scorers.foldlM
    (fun _ _k =>
      if 0 < decoder_text_length_limit then
        match attrs.len with
        | none => Except.error PyErr.attributeError
        | some lenf =>
          if 0 < lenf hyp.yseq ∧
              decoder_text_length_limit < (hyp.yseq.getD 0 []).length then
            match attrs.decoder_text_length_oimit with
            | none => Except.error PyErr.attributeError
            | some _w => Except.ok ()  -- narrow, sos write-back and batch_score (opaque)
          else Except.ok ()
      else Except.ok ())
    ()

/-! ## Transducer search: `espnet/nets/pytorch_backend/transducer/search.py` -/

/-- A transducer search hypothesis (the dicts built in search.py): output
token sequence `yseq` (starts with the blank id), cumulative `score`, and
the opaque per-scorer data carried along (`dec_state`, `att_w`, `lm_state`)
modelled as black-box tags. -/
structure THyp where
  yseq : List ℕ
  score : ℚ
  dec_state : ℕ
  att_w : ℕ
  lm_state : ℕ
  deriving DecidableEq, Repr

instance : Inhabited THyp := ⟨{ yseq := [], score := 0, dec_state := 0, att_w := 0, lm_state := 0 }⟩

/-- The decoder collaborator of the transducer searches, per the spec's
model/scorer and joint-network contracts (§6): `forward_one_step` returns an
opaque decoder output `y`, a new opaque state, a new attention tag and the
LM tokens; `jointLp frame y k` is `log_softmax(decoder.joint(h[frame], y))[k]`.
Frames are identified by opaque ids. -/
structure TDecoder where
  odim : ℕ
  blank : ℕ
  fosY : THyp → ℕ
  fosState : THyp → ℕ
  fosAtt : THyp → ℕ
  fosLmTokens : THyp → ℕ
  jointLp : ℕ → ℕ → ℕ → ℚ

/-- The optional language model, per the spec's language-model contract
(§6): `predict(state, tokens)` yields a new state and a score vector. -/
structure TRnnlm where
  predictState : ℕ → ℕ → ℕ
  predictScore : ℕ → ℕ → ℕ → ℚ

/-- The seed hypothesis of the transducer searches (score `0.0`, sequence
`[blank]`, zero states; the opaque tags start at `0`). -/
def initTHyp (dec : TDecoder) : THyp :=
  { yseq := [dec.blank], score := 0, dec_state := 0, att_w := 0, lm_state := 0 }

/-- Index of the first maximal-score element, Python's
`max(hyps, key=lambda x: x["score"])` combined with `list.remove` (which
drops the first equal element). -/
def firstMaxIdx : List THyp → ℕ
  | [] => 0
  | [_] => 0
  | a :: b :: rest =>
    let j := firstMaxIdx (b :: rest)
    if a.score < ((b :: rest).getD j a).score then j + 1 else 0

/-- The per-`k` child construction of `default_beam_search` (lines 99-120):
returns the hypotheses appended to `kept_hyps` (the single blank child) and
the ones appended to `hyps` (one non-blank child per `k ≠ blank`, in `k`
order).  A blank child keeps every parent field; a non-blank child appends
`k`, takes the fresh decoder state and, when an LM is present, adds
`lm_weight * lm_scores[0][k]` to its score and advances the LM state.
(Line 112 of the source writes the fresh attention weights under the
misspelled key `"att_w "` — with a trailing blank — so the child's real
`att_w` entry stays the parent's; the embedding reproduces that.) -/
def dbsChildren (dec : TDecoder) (rnnlm : Option TRnnlm) (lm_weight : ℚ)
    (hi : ℕ) (new_hyp : THyp) : List THyp × List THyp :=
  let y := dec.fosY new_hyp
  let state := dec.fosState new_hyp
  let lm_tokens := dec.fosLmTokens new_hyp
  ((List.range dec.odim).filterMap fun k =>
      if k = dec.blank then
        some { new_hyp with score := new_hyp.score + dec.jointLp hi y k }
      else none,
   (List.range dec.odim).filterMap fun k =>
      if k = dec.blank then none
      else some (
        match rnnlm with
        | none =>
          { yseq := new_hyp.yseq ++ [k],
            score := new_hyp.score + dec.jointLp hi y k,
            dec_state := state,
            att_w := new_hyp.att_w,
            lm_state := new_hyp.lm_state }
        | some lm =>
          { yseq := new_hyp.yseq ++ [k],
            score := new_hyp.score + dec.jointLp hi y k
              + lm_weight * lm.predictScore new_hyp.lm_state lm_tokens k,
            dec_state := state,
            att_w := new_hyp.att_w,
            lm_state := lm.predictState new_hyp.lm_state lm_tokens }))

/-- The spec's combined per-step score for a child obtained by appending
token `k`: the parent score plus the weighted sum of every active scorer's
log-probability — the joint network with weight 1, plus `lm_weight` times
the LM log-probability when an LM is present (weight effectively 0 when
absent). -/
def specChildScore (dec : TDecoder) (rnnlm : Option TRnnlm) (lm_weight : ℚ)
    (hi : ℕ) (parent : THyp) (k : ℕ) : ℚ :=
  parent.score + dec.jointLp hi (dec.fosY parent) k +
    (match rnnlm with
     | none => 0
     | some lm => lm_weight * lm.predictScore parent.lm_state (dec.fosLmTokens parent) k)

/-- The `while True` loop of `default_beam_search` (lines 86-127), with
fuel.  Each iteration pops the best running hypothesis, expands it, appends
its single blank child to `kept_hyps`, and leaves the loop when
`kept_most_prob >= k_range`; since `kept_most_prob` (lines 123-125) is the
length of a `sorted` copy of `kept_hyps` — the comparison key changes only
the order, never the length — the exit test is just
`len(kept_hyps) >= k_range`.  Python's `max` on an empty list (the popped
`hyps`, or line 122's `max(hyps, ...)`) raises `ValueError`. -/
def dbsWhile (dec : TDecoder) (rnnlm : Option TRnnlm) (lm_weight : ℚ)
    (hi : ℕ) (k_range : ℕ) : ℕ → List THyp → List THyp → Except PyErr (List THyp)
  | 0, _, _ => Except.error PyErr.fuelOut
  | fuel + 1, hyps, kept =>
    if hyps.isEmpty then Except.error PyErr.valueError
    else
      let j := firstMaxIdx hyps
      let new_hyp := hyps.getD j default
      let hyps1 := hyps.eraseIdx j
      let cs := dbsChildren dec rnnlm lm_weight hi new_hyp
      let hyps2 := hyps1 ++ cs.2
      let kept2 := kept ++ cs.1
      if hyps2.isEmpty then Except.error PyErr.valueError
      else if k_range ≤ kept2.length then Except.ok kept2
      else dbsWhile dec rnnlm lm_weight hi k_range fuel hyps2 kept2

/-- One frame (`for hi in h`) of `default_beam_search`: the running beam is
the previous `kept_hyps`, the new `kept_hyps` starts empty. -/
def dbsFrame (dec : TDecoder) (rnnlm : Option TRnnlm) (lm_weight : ℚ)
    (hi : ℕ) (k_range fuel : ℕ) (kept : List THyp) : Except PyErr (List THyp) :=
  dbsWhile dec rnnlm lm_weight hi k_range fuel kept []

/-- The N-best selection of `default_beam_search` (lines 129-134): sort by
score — length-normalized if `score_norm_transducer` is set — descending,
stable, and keep `nbest`. -/
def dbsNbest (normscore : Bool) (nbest : ℕ) (kept : List THyp) : List THyp :=
  if normscore then
    (sortDescBy (fun x => x.score / (x.yseq.length : ℚ)) kept).take nbest
  else
    (sortDescBy (fun x => x.score) kept).take nbest

/-- Lines 185-202 of `time_sync_decoding`: insert the blank-extended
candidate `cand` (its score already includes `ytu[0]`) into the
blank-advance set `A`.  If `A` already holds a hypothesis with the same
output sequence (`seq_A.index` finds the first one), the two are merged in
place — the stored score becomes `np.logaddexp` of the two scores (`lse` is
that opaque numerical black box) — otherwise `cand` is appended. -/
def tsdMergeBlank (lse : ℚ → ℚ → ℚ) : List THyp → THyp → List THyp
  | [], cand => [cand]
  | a :: A, cand =>
    if a.yseq = cand.yseq then { a with score := lse a.score cand.score } :: A
    else a :: tsdMergeBlank lse A cand

/-- The body of `for hyp in C` (lines 180-228) of `time_sync_decoding`:
updates the pair (A, D).  The blank move (token 0, `ytu[0]`) goes to `A`
via `tsdMergeBlank`, keeping the parent's states; each non-blank `k` (the
`range(1, odim)` loop, guarded by `v < max_sym_exp`, which is always true
for `v` drawn from `range(max_sym_exp)`) yields an expansion child appended
to `D` with the fresh decoder state and attention tag and, when an LM is
present, the weighted LM score added. -/
def tsdProcessHyp (dec : TDecoder) (rnnlm : Option TRnnlm) (lm_weight : ℚ)
    (lse : ℚ → ℚ → ℚ) (hi : ℕ) (v max_sym_exp : ℕ)
    (acc : List THyp × List THyp) (hyp : THyp) : List THyp × List THyp :=
  let y := dec.fosY hyp
  let state := dec.fosState hyp
  let att_w := dec.fosAtt hyp
  let lm_tokens := dec.fosLmTokens hyp
  let blankCand : THyp := { hyp with score := hyp.score + dec.jointLp hi y 0 }
  let A' := tsdMergeBlank lse acc.1 blankCand
  let dAdd :=
    if v < max_sym_exp then
      (List.range dec.odim).filterMap fun k =>
        if k = 0 then none
        else some (
          match rnnlm with
          | none =>
            { yseq := hyp.yseq ++ [k],
              score := hyp.score + dec.jointLp hi y k,
              dec_state := state, att_w := att_w, lm_state := hyp.lm_state }
          | some lm =>
            { yseq := hyp.yseq ++ [k],
              score := hyp.score + dec.jointLp hi y k
                + lm_weight * lm.predictScore hyp.lm_state lm_tokens k,
              dec_state := state, att_w := att_w,
              lm_state := lm.predictState hyp.lm_state lm_tokens })
    else []
  (A', acc.2 ++ dAdd)

/-- The symbol-expansion rounds `for v in range(max_sym_exp)` (lines
177-230) of `time_sync_decoding`, written as recursion on the number of
remaining rounds (`v` is the index of the current round).  Each round folds
the current `C` into (A, D) with a fresh `D`, then prunes
`C = sorted(D)[:w_range]`. -/
def tsdRounds (dec : TDecoder) (rnnlm : Option TRnnlm) (lm_weight : ℚ)
    (lse : ℚ → ℚ → ℚ) (hi : ℕ) (w_range max_sym_exp : ℕ) :
    ℕ → ℕ → List THyp × List THyp → List THyp × List THyp
  | _v, 0, acc => acc
  | v, n + 1, acc =>
    let AD := acc.2.foldl (tsdProcessHyp dec rnnlm lm_weight lse hi v max_sym_exp)
      (acc.1, [])
    tsdRounds dec rnnlm lm_weight lse hi w_range max_sym_exp (v + 1) n
      (AD.1, (sortDescBy (fun x => x.score) AD.2).take w_range)

/-- One frame (`for hi in h`) of `time_sync_decoding` (lines 173-232):
`A = []`, `C = B`, run the `max_sym_exp` rounds, then
`B = sorted(A)[:w_range]`. -/
def tsdFrame (dec : TDecoder) (rnnlm : Option TRnnlm) (lm_weight : ℚ)
    (lse : ℚ → ℚ → ℚ) (hi : ℕ) (w_range max_sym_exp : ℕ)
    (B : List THyp) : List THyp :=
  let AC := tsdRounds dec rnnlm lm_weight lse hi w_range max_sym_exp 0 max_sym_exp ([], B)
  (sortDescBy (fun x => x.score) AC.1).take w_range

/-- `time_sync_decoding` (lines 139-236): `w_range = min(beam, odim)`,
`max_sym_exp = nstep`, seed beam `B = [init]`, one `tsdFrame` per encoder
frame, and the final `sorted(B)[:nbest]`. -/
def time_sync_decoding (dec : TDecoder) (rnnlm : Option TRnnlm)
    (lm_weight : ℚ) (lse : ℚ → ℚ → ℚ) (h : List ℕ)
    (beam nstep nbest : ℕ) : List THyp :=
  let w_range := min beam dec.odim
  let B := h.foldl (fun B hi => tsdFrame dec rnnlm lm_weight lse hi w_range nstep B)
    [initTHyp dec]
  (sortDescBy (fun x => x.score) B).take nbest

/-- The alignment position bookkeeping of `align_length_sync_decoding`
(lines 281-285): at outer iteration `i`, a hypothesis with output length
`u = len(yseq) - 1` is evaluated at frame index `t = i - u + 1`, unless
that exceeds the last frame (`t > h_length - 1`), in which case it is
skipped (`continue`). -/
def alsdFrameIdx (h_length i : ℕ) (hyp : THyp) : Option ℤ :=
  let u := hyp.yseq.length - 1
  let t : ℤ := (i : ℤ) - (u : ℤ) + 1
  if (h_length : ℤ) - 1 < t then none else some t

/-- Python indexing `h[t]` for the (possibly negative) index produced
above: a negative index counts from the end of the sequence. -/
def frameAt (h : List ℕ) (t : ℤ) : ℕ :=
  if t < 0 then h.getD (((h.length : ℤ) + t).toNat) 0 else h.getD t.toNat 0

/-- The body of `for hyp in B` (lines 280-322) of
`align_length_sync_decoding`, updating the pair (A, final): skipped
hypotheses leave both untouched; otherwise the blank-extended `new_hyp`
(parent states kept) is appended to `A`, also to `final` when
`t == h_length - 1`, and each non-blank `k` appends an expansion child with
the fresh states (and LM contribution when present). -/
def alsdProcessHyp (dec : TDecoder) (rnnlm : Option TRnnlm) (lm_weight : ℚ)
    (h : List ℕ) (i : ℕ) (acc : List THyp × List THyp) (hyp : THyp) :
    List THyp × List THyp :=
  match alsdFrameIdx h.length i hyp with
  | none => acc
  | some t =>
    let y := dec.fosY hyp
    let state := dec.fosState hyp
    let att_w := dec.fosAtt hyp
    let lm_tokens := dec.fosLmTokens hyp
    let fr := frameAt h t
    let new_hyp : THyp := { hyp with score := hyp.score + dec.jointLp fr y 0 }
    let A1 := acc.1 ++ [new_hyp]
    let final1 := if t = (h.length : ℤ) - 1 then acc.2 ++ [new_hyp] else acc.2
    let children :=
      (List.range dec.odim).filterMap fun k =>
        if k = 0 then none
        else some (
          match rnnlm with
          | none =>
            { yseq := hyp.yseq ++ [k],
              score := hyp.score + dec.jointLp fr y k,
              dec_state := state, att_w := att_w, lm_state := hyp.lm_state }
          | some lm =>
            { yseq := hyp.yseq ++ [k],
              score := hyp.score + dec.jointLp fr y k
                + lm_weight * lm.predictScore hyp.lm_state lm_tokens k,
              dec_state := state, att_w := att_w,
              lm_state := lm.predictState hyp.lm_state lm_tokens })
    (A1 ++ children, final1)

/-- `recombine_hyps` of `espnet/nets/pytorch_backend/transducer/utils.py`.
Modelled from the spec: the module is not under src/; §2/§3 of the spec say
the set manager "merges equivalent ... hypotheses", i.e. hypotheses with
identical output sequences are combined into one whose score is the
log-sum-exp (`lse`) of the merged scores. -/
def recombine_hyps (lse : ℚ → ℚ → ℚ) (l : List THyp) : List THyp :=
  l.foldl (tsdMergeBlank lse) []

/-- One outer iteration `for i in range(h_length + u_max)` of
`align_length_sync_decoding` (lines 277-325): fold `B` into (A, final),
then `B = recombine_hyps(sorted(A)[:w_range])`. -/
def alsdIter (dec : TDecoder) (rnnlm : Option TRnnlm) (lm_weight : ℚ)
    (lse : ℚ → ℚ → ℚ) (h : List ℕ) (w_range i : ℕ)
    (B final : List THyp) : List THyp × List THyp :=
  let AF := B.foldl (alsdProcessHyp dec rnnlm lm_weight h i) ([], final)
  (recombine_hyps lse ((sortDescBy (fun x => x.score) AF.1).take w_range), AF.2)

/-- The finalist candidate a hypothesis contributes at iteration `i` (lines
291-302): when the hypothesis is evaluated at the last frame
(`t == h_length - 1`), its blank-extended `new_hyp` is appended to the
finalist pool; otherwise nothing is. -/
def alsdFinalCand (dec : TDecoder) (h : List ℕ) (i : ℕ) (hyp : THyp) :
    Option THyp :=
  match alsdFrameIdx h.length i hyp with
  | some t =>
    if t = (h.length : ℤ) - 1 then
      some { hyp with
             score := hyp.score + dec.jointLp (frameAt h t) (dec.fosY hyp) 0 }
    else none
  | none => none

/-- The final selection of `align_length_sync_decoding` (lines 327-330):
the N-best come from the finalist pool when it is non-empty, otherwise from
the last beam. -/
def alsdSelect (nbest : ℕ) (B final : List THyp) : List THyp :=
  if final.isEmpty then B.take nbest
  else (sortDescBy (fun x => x.score) final).take nbest

/-- `align_length_sync_decoding` (lines 239-332): `w_range = min(beam,
odim)`, `u_max = min(u_max_arg, h_length - 1)`, the iteration loop over
`i in range(h_length + u_max)` threading (B, final), then the final
selection. -/
def align_length_sync_decoding (dec : TDecoder) (rnnlm : Option TRnnlm)
    (lm_weight : ℚ) (lse : ℚ → ℚ → ℚ) (h : List ℕ)
    (beam u_max_arg nbest : ℕ) : List THyp :=
  let w_range := min beam dec.odim
  let u_max := min u_max_arg (h.length - 1)
  let BF := (List.range (h.length + u_max)).foldl
    (fun (acc : List THyp × List THyp) i =>
      alsdIter dec rnnlm lm_weight lse h w_range i acc.1 acc.2)
    ([initTHyp dec], [])
  alsdSelect nbest BF.1 BF.2

/-- Hypothesis record of `nsc_beam_search` (lines 386-396): in addition to
the usual fields it carries the list `y` of opaque decoder outputs (one per
expansion) and an opaque handle `lm_scores` to the LM score vector. -/
structure NHyp where
  yseq : List ℕ
  score : ℚ
  dec_state : ℕ
  att_w : ℕ
  y : List ℕ
  lm_state : ℕ
  lm_scores : ℕ
  deriving DecidableEq, Repr

instance : Inhabited NHyp :=
  ⟨{ yseq := [], score := 0, dec_state := 0, att_w := 0, y := [], lm_state := 0, lm_scores := 0 }⟩

/-- The batched decoder collaborator of `nsc_beam_search`, per the spec's
contracts (§6): `jointLp frame y k` as before; `batchY/batchState/batchAtt`
give row `i` of the result of `forward_batch_one_step` applied to a
hypothesis list and of `get_idx_dec_state`; `lmStateOf/lmScoresOf` give row
`i` of `buff_predict`'s batched states and scores; `lmScoreAt s k` reads
entry `k` of the score vector behind handle `s`. -/
structure NDecoder where
  odim : ℕ
  blank : ℕ
  jointLp : ℕ → ℕ → ℕ → ℚ
  batchY : List NHyp → ℕ → ℕ
  batchState : List NHyp → ℕ → ℕ
  batchAtt : List NHyp → ℕ → ℕ
  lmStateOf : List NHyp → ℕ → ℕ
  lmScoresOf : List NHyp → ℕ → ℕ
  lmScoreAt : ℕ → ℕ → ℚ

/-- `is_prefix(x, pref)` of `espnet/nets/pytorch_backend/transducer/utils.py`.
Modelled from the spec: that module is not under src/; §4.3 describes the
N-step-constrained merge as acting on "hypotheses that are prefixes of one
another", so this tests that `pref` is a strict prefix of `x`. -/
def isPref (x pref : List ℕ) : Bool :=
  decide (pref.length < x.length) && decide (x.take pref.length = pref)

/-- `substract(x, subset)` of transducer/utils.py.  Modelled from the spec:
the module is not under src/; §4.3 calls it "a `substract` (sic) step
removing already-expanded candidates from future expansion", so it drops
from `x` every candidate whose output sequence occurs in `subset`. -/
def substractHyps (x subset : List NHyp) : List NHyp :=
  x.filter (fun v => !(subset.any (fun s => s.yseq == v.yseq)))

/-- `curr_score` of the prefix merge (lines 408-419): the shorter
hypothesis's score plus the joint log-probabilities of walking the longer
hypothesis's remaining tokens. -/
def nscPrefixScore (dec : NDecoder) (hi : ℕ) (hj hk : NHyp) : ℚ :=
  let next_id := hk.yseq.length
  let base := hk.score + dec.jointLp hi (hk.y.getLastD 0) (hj.yseq.getD next_id 0)
  (List.range' next_id (hj.yseq.length - 1 - next_id)).foldl
    (fun acc k => acc + dec.jointLp hi (hj.y.getD k 0) (hj.yseq.getD (k + 1) 0))
    base

/-- The in-place prefix merge of `nsc_beam_search` (lines 402-421): for each
pair `j < i`, when `hyps[i]` is a strict prefix of `hyps[j]` within the
`prefix_alpha` bound, `hyps[j]`'s score becomes `np.logaddexp` (`lse`) of
its current value and the walked score.  The list is mutated at index `j`
while later pairs keep reading the mutated values, exactly as the source's
in-place dict updates do. -/
def nscPrefixMerge (dec : NDecoder) (lse : ℚ → ℚ → ℚ) (hi : ℕ)
    (pAlpha : ℕ) (hyps0 : List NHyp) : List NHyp :=
  (List.range (hyps0.length - 1)).foldl
    (fun hyps j =>
      (List.range' (j + 1) (hyps.length - (j + 1))).foldl
        (fun hyps i =>
          let hj := hyps.getD j default
          let hk := hyps.getD i default
          if isPref hj.yseq hk.yseq ∧ hj.yseq.length - hk.yseq.length ≤ pAlpha then
            hyps.set j { hj with score := lse hj.score (nscPrefixScore dec hi hj hk) }
          else hyps)
        hyps)
    hyps0

/-- The candidate generation of one `n`-step (lines 443-471): each running
hypothesis is expanded over the whole vocabulary from the batched joint
log-probabilities; the blank candidate goes to `S`, each non-blank one
appends its token, adds the weighted LM score when an LM is present, and
goes to `V`. -/
def nscExpand (dec : NDecoder) (useLm : Bool) (lm_weight : ℚ) (hi : ℕ)
    (hyps : List NHyp) (SV : List NHyp × List NHyp) :
    List NHyp × List NHyp :=
  hyps.foldl
    (fun acc hyp =>
      (List.range dec.odim).foldl
        (fun acc k =>
          let curr := dec.jointLp hi (hyp.y.getLastD 0) k
          if k = dec.blank then
            (acc.1 ++ [{ hyp with score := hyp.score + curr }], acc.2)
          else
            let base := hyp.score + curr
            let sc := if useLm then base + lm_weight * dec.lmScoreAt hyp.lm_scores k
                      else base
            (acc.1, acc.2 ++ [{ hyp with yseq := hyp.yseq ++ [k], score := sc }]))
        acc)
    SV

/-- The per-candidate state refresh after pruning (lines 476-522): every
surviving `v` receives the fresh batched decoder state, attention tag and
decoder output (appended to `y`), the LM rows when an LM is present, and —
on the last `n`-step with `nstep != 1` — the blank log-probability of the
fresh output added to its score (lines 505-510). -/
def nscUpdateV (dec : NDecoder) (useLm : Bool) (V : List NHyp)
    (isLast : Bool) (nstep : ℕ) (hi : ℕ) : List NHyp :=
  (List.range V.length).map fun i =>
    let v := V.getD i default
    let y' := dec.batchY V i
    let v1 := { v with
      dec_state := dec.batchState V i,
      att_w := dec.batchAtt V i,
      y := v.y ++ [y'],
      lm_state := if useLm then dec.lmStateOf V i else v.lm_state,
      lm_scores := if useLm then dec.lmScoresOf V i else v.lm_scores }
    if isLast ∧ nstep ≠ 1 then { v1 with score := v1.score + dec.jointLp hi y' 0 }
    else v1

/-- One `n`-step of `nsc_beam_search` (lines 425-522), threading
`(S, V, hyps)`: expand, sort `V`, remove the already-expanded candidates
(`substract`) and keep `w_range`, refresh states; before the last step the
running set becomes `V[:]`. -/
def nscStep (dec : NDecoder) (useLm : Bool) (lm_weight : ℚ) (hi : ℕ)
    (w_range nstep n : ℕ) (acc : List NHyp × List NHyp × List NHyp) :
    List NHyp × List NHyp × List NHyp :=
  let SV := nscExpand dec useLm lm_weight hi acc.2.2 (acc.1, acc.2.1)
  let V1 := sortDescBy (fun x => x.score) SV.2
  let V2 := (substractHyps V1 acc.2.2).take w_range
  if n < nstep - 1 then
    let V3 := nscUpdateV dec useLm V2 false nstep hi
    (SV.1, V3, V3)
  else
    let V3 := nscUpdateV dec useLm V2 true nstep hi
    (SV.1, V3, acc.2.2)

/-- The `for n in range(nstep)` loop, as recursion on the remaining steps
(`n` is the index of the current step). -/
def nscSteps (dec : NDecoder) (useLm : Bool) (lm_weight : ℚ) (hi : ℕ)
    (w_range nstep : ℕ) :
    ℕ → ℕ → List NHyp × List NHyp × List NHyp →
    List NHyp × List NHyp × List NHyp
  | _n, 0, acc => acc
  | n, m + 1, acc =>
    nscSteps dec useLm lm_weight hi w_range nstep (n + 1) m
      (nscStep dec useLm lm_weight hi w_range nstep n acc)

/-- One frame (`for hi in h`) of `nsc_beam_search` (lines 398-524): order
the kept hypotheses by decreasing output length, run the prefix merge, run
the `nstep` expansion steps from `S = V = []`, then
`kept_hyps = sorted(S + V)[:w_range]`. -/
def nscFrame (dec : NDecoder) (useLm : Bool) (lm_weight : ℚ)
    (lse : ℚ → ℚ → ℚ) (hi : ℕ) (w_range nstep pAlpha : ℕ)
    (kept : List NHyp) : List NHyp :=
  let hyps0 := sortDescBy (fun x => (x.yseq.length : ℚ)) kept
  let hyps := nscPrefixMerge dec lse hi pAlpha hyps0
  let SVH := nscSteps dec useLm lm_weight hi w_range nstep 0 nstep ([], [], hyps)
  (sortDescBy (fun x => x.score) (SVH.1 ++ SVH.2.1)).take w_range

/-- `nsc_beam_search` (lines 335-530): `w_range = min(beam, odim)`, the
seed hypothesis, one `nscFrame` per encoder frame, and the final
length-normalized N-best selection (lines 526-528). -/
def nsc_beam_search (dec : NDecoder) (useLm : Bool) (lm_weight : ℚ)
    (lse : ℚ → ℚ → ℚ) (h : List ℕ) (beam nstep pAlpha nbest : ℕ) :
    List NHyp :=
  let w_range := min beam dec.odim
  let seed : NHyp :=
    { yseq := [dec.blank], score := 0, dec_state := 0, att_w := 0,
      y := [0], lm_state := 0, lm_scores := 0 }
  let kept := h.foldl
    (fun kept hi => nscFrame dec useLm lm_weight lse hi w_range nstep pAlpha kept)
    [seed]
  (sortDescBy (fun x => x.score / (x.yseq.length : ℚ)) kept).take nbest

/-- The dispatch result of `search_interface` (lines 533-562): which search
runs, or the `NotImplementedError` raised — before any decoding step loop —
for an unknown variant name. -/
inductive SearchChoice where
  | greedy
  | dflt
  | nsc
  | tsd
  | alsd
  | err
  deriving DecidableEq, Repr

/-- `search_interface` (lines 546-562): `beam_size == 1` always dispatches
to greedy search; otherwise the `search_type` string selects the variant,
and any other string raises `NotImplementedError`. -/
def search_interface (beam_size : ℕ) (search_type : String) : SearchChoice :=
  if beam_size = 1 then SearchChoice.greedy
  else if search_type = "default" then SearchChoice.dflt
  else if search_type = "nsc" then SearchChoice.nsc
  else if search_type = "tsd" then SearchChoice.tsd
  else if search_type = "alsd" then SearchChoice.alsd
  else SearchChoice.err

def attrsAbsent : SelfAttrs :=
  { len := none, decoder_text_length_oimit := none }

def longBatch : BatchHyps :=
  { yseq := [[0, 2, 3, 4, 5]], length := [5], score := [0] }

/-- The batched hypothesis with a repeated trailing token used to refute
claim C3: row 0 is `[0, 7, 9, 7]`, whose newest token 7 also occurs
earlier in the uncommitted region. -/
def repBest : BatchHyps :=
  { yseq := [[0, 7, 9, 7]], length := [4], score := [-1] }

/-- Concrete opaque collaborators under which the repeated-token block is
decoded: the search step returns `repBest`, post-processing is the
identity, end detection never fires. -/
def repEnv : OnlineEnv :=
  { search := fun _ _ => repBest,
    post_process := fun _ _ _ b eh => (b, eh),
    init_hyp := fun _ => repBest,
    end_detect := fun _ _ => false,
    extend := fun _ b => b,
    reset_decoder_states := fun b => b,
    eos := 1 }

def repSt : PobState :=
  { running_hyps := repBest, prev_hyps := none, ended_hyps := [],
    process_idx := 0 }

def w6list : List OHyp :=
  [{ yseq := [0, 2], score := 1 }, { yseq := [0, 3], score := 2 }]

def w6sorted : List OHyp :=
  [{ yseq := [0, 3], score := 2 }, { yseq := [0, 2], score := 1 }]

def w5dec : TDecoder :=
  { odim := 3, blank := 0,
    fosY := fun _ => 5, fosState := fun _ => 6,
    fosAtt := fun _ => 7, fosLmTokens := fun _ => 8,
    jointLp := fun _ y k => ((y : ℚ) + (k : ℚ)) }

def w5lm : TRnnlm :=
  { predictState := fun s t => s + t,
    predictScore := fun s t k => ((s : ℚ) + (t : ℚ) + (k : ℚ)) }

def w5parent : THyp :=
  { yseq := [0, 2], score := 10, dec_state := 1, att_w := 2, lm_state := 3 }

def w5child : THyp :=
  { yseq := [0, 2, 1], score := 40, dec_state := 6, att_w := 2, lm_state := 11 }

def wDec : TDecoder :=
  { odim := 2, blank := 0,
    fosY := fun _ => 0, fosState := fun _ => 0,
    fosAtt := fun _ => 0, fosLmTokens := fun _ => 0,
    jointLp := fun _ _ k => if k = 0 then -1 else -2 }

def wRes : List THyp :=
  [{ yseq := [0], score := -1, dec_state := 0, att_w := 0, lm_state := 0 },
   { yseq := [0, 1], score := -3, dec_state := 0, att_w := 0, lm_state := 0 }]

/-- The length-budget invariant used for C7: `x` is within `k` appended
tokens of some hypothesis of the frame's starting beam `B`. -/
def lenBounded (B : List THyp) (k : ℕ) (x : THyp) : Prop :=
  ∃ b ∈ B, x.yseq.length ≤ b.yseq.length + k

def w7dec : TDecoder :=
  { odim := 2, blank := 0, fosY := fun _ => 0, fosState := fun _ => 0,
    fosAtt := fun _ => 0, fosLmTokens := fun _ => 0,
    jointLp := fun _ _ _ => 0 }

def w7a : THyp :=
  { yseq := [0, 3], score := 1, dec_state := 0, att_w := 0, lm_state := 0 }

def w7c : THyp :=
  { yseq := [0, 3], score := 2, dec_state := 0, att_w := 0, lm_state := 0 }

def w8hyp0 : THyp :=
  { yseq := [0], score := 0, dec_state := 0, att_w := 0, lm_state := 0 }

def w8hyp1 : THyp :=
  { yseq := [0, 4], score := 0, dec_state := 0, att_w := 0, lm_state := 0 }

def w8fin : THyp :=
  { yseq := [0, 4, 2], score := 5, dec_state := 0, att_w := 0, lm_state := 0 }

/-! ## Theorems -/

theorem sortDescBy_sorted {α : Type} (key : α → ℚ) (l : List α) :
    (sortDescBy key l).Sorted (fun a b => key b ≤ key a) := by
  haveI : IsTotal α (fun a b => key b ≤ key a) := ⟨fun a b => (le_total (key b) (key a))⟩
  haveI : IsTrans α (fun a b => key b ≤ key a) :=
    ⟨fun _ _ _ h h' => le_trans h' h⟩
  exact List.sorted_insertionSort _ l

theorem sortDescBy_of_sorted {α : Type} (key : α → ℚ) (l : List α)
    (h : l.Sorted (fun a b => key b ≤ key a)) : sortDescBy key l = l :=
  List.Sorted.insertionSort_eq h

theorem sortDescBy_idem {α : Type} (key : α → ℚ) (l : List α) :
    sortDescBy key (sortDescBy key l) = sortDescBy key l :=
  sortDescBy_of_sorted key _ (sortDescBy_sorted key l)

theorem sorted_take {α : Type} {r : α → α → Prop} {l : List α}
    (h : l.Sorted r) (n : ℕ) : (l.take n).Sorted r :=
  List.Pairwise.sublist (List.take_sublist n l) h

theorem length_sortDescBy {α : Type} (key : α → ℚ) (l : List α) :
    (sortDescBy key l).length = l.length :=
  List.length_insertionSort _ l

theorem mem_sortDescBy {α : Type} {key : α → ℚ} {l : List α} {x : α} :
    x ∈ sortDescBy key l ↔ x ∈ l :=
  List.mem_insertionSort _

/-- C1: the claim says a decode ending with zero completed hypotheses is
recovered by one automatic retry with `minlenratio` relaxed by 0.1 and, if
still empty, yields an empty result list with no fault raised.  The code is
a slip: `assemble_hyps` reads `minlenratio`, `x` and `maxlenratio`, which
are unbound in its scope (they were parameters of the method this branch
was refactored out of), so on an empty completed set it raises `NameError`
before any retry — contradicting its own warning message announcing the
retry. -/
theorem C1_empty_assembly_raises_name_error :
    assemble_hyps [] = Except.error PyErr.nameError := rfl

/-- C2 counterexample: with `maxlenratio = 0` and zero encoder frames the
derived step budget is `x.shape[0] = 0`, not `max(1, 0) = 1`; the
`max(1, ...)` floor exists only in the nonzero-ratio branch. -/
theorem C2_counterexample :
    forwardMaxlen 0 0 ≠ max 1 0 := by decide

/-- C2 (amended): with `maxlenratio = 0` the step budget equals the encoder
length with no floor; in particular with zero input frames `maxlen = 0`, the
step loop of `process_one_block` runs zero iterations, and the final
assembly of the empty completed set raises `NameError` instead of returning
a hypothesis — for every instantiation of the opaque collaborators. -/
theorem C2_amended_maxlen_unfloored_and_zero_frames_raise :
    (∀ n : ℕ, forwardMaxlen 0 n = n) ∧
    (∀ env : OnlineEnv,
      forward env defaultOnlineCfg [] 0 0 true 1 resetState =
        Except.error PyErr.nameError) := by
  constructor
  · intro n
    simp [forwardMaxlen]
  · intro env
    rfl

/-- C9 counterexample: the claim says an unknown search-variant name makes
the search interface raise for all beam sizes; but `beam_size == 1` is
tested first (line 549) and dispatches to greedy search, never validating
`search_type`. -/
theorem C9_counterexample :
    search_interface 1 ("totally-unknown") = SearchChoice.greedy ∧
    SearchChoice.greedy ≠ SearchChoice.err := ⟨rfl, by decide⟩

/-- C9 (amended): for every configuration with `beam_size ≠ 1` and a
search-variant name outside {default, nsc, tsd, alsd}, `search_interface`
raises `NotImplementedError` at dispatch, before any decoding step loop;
with `beam_size = 1` the greedy search runs regardless of the name. -/
theorem C9_amended_fail_fast_unless_beam_one (beam_size : ℕ) (st : String)
    (h1 : beam_size ≠ 1) (h2 : st ≠ "default") (h3 : st ≠ "nsc")
    (h4 : st ≠ "tsd") (h5 : st ≠ "alsd") :
    search_interface beam_size st = SearchChoice.err := by
  simp [search_interface, h1, h2, h3, h4, h5]

theorem C9_witness :
    (2 : ℕ) ≠ 1 ∧ ("beam-search" : String) ≠ "default" ∧
    ("beam-search" : String) ≠ "nsc" ∧ ("beam-search" : String) ≠ "tsd" ∧
    ("beam-search" : String) ≠ "alsd" ∧
    search_interface 2 ("beam-search") = SearchChoice.err :=
  ⟨by decide, by decide, by decide, by decide, by decide,
   C9_amended_fail_fast_unless_beam_one 2 ("beam-search")
     (by decide) (by decide) (by decide) (by decide) (by decide)⟩

/-- C10: whenever `decoder_text_length_limit > 0` and a batched hypothesis
exceeds it, `score_full` raises: as soon as the guard of line 81 passes the
positivity test it evaluates `self.len(hyp.yseq)` — an attribute no code in
the class (nor, per the spec's interfaces, its parents) defines — and the
branch body would read the misspelled `self.decoder_text_length_oimit`; so
the truncation branch never completes for any input. -/
theorem C10_truncation_branch_always_raises
    (attrs : SelfAttrs) (scorers : List String) (limit : ℕ) (hyp : BatchHyps)
    (hS : scorers ≠ []) (hlim : 0 < limit) (hlen : attrs.len = none)
    (hoimit : attrs.decoder_text_length_oimit = none)
    (hlong : limit < (hyp.yseq.getD 0 []).length) :
    score_full attrs scorers limit hyp = Except.error PyErr.attributeError := by
  cases scorers with
  | nil => exact absurd rfl hS
  | cons k ks =>
    simp [score_full, List.foldlM, hlen, hlim]
    rfl

theorem C10_witness :
    (["decoder"] : List String) ≠ [] ∧ 0 < 3 ∧ attrsAbsent.len = none ∧
    attrsAbsent.decoder_text_length_oimit = none ∧
    3 < (longBatch.yseq.getD 0 []).length ∧
    score_full attrsAbsent ["decoder"] 3 longBatch =
      Except.error PyErr.attributeError :=
  ⟨by decide, by decide, rfl, rfl, by decide,
   C10_truncation_branch_always_raises attrsAbsent ["decoder"] 3 longBatch
     (by decide) (by decide) rfl rfl (by decide)⟩

theorem scanLocalEnded_foldl_snd (eos : ℕ) (best : BatchHyps) :
    ∀ (l : List ℕ) (acc : List OHyp × Bool),
      (l.foldl
        (fun acc i =>
          if isLocalEos eos best i then (acc.1 ++ [selectHyp best i], acc.2)
          else (acc.1, acc.2))
        acc).2 = acc.2
  | [], _ => rfl
  | i :: l, acc => by
    rw [List.foldl_cons, scanLocalEnded_foldl_snd eos best l]
    split <;> rfl

theorem scanLocalEnded_snd (eos : ℕ) (best : BatchHyps) :
    (scanLocalEnded eos best).2 = false :=
  scanLocalEnded_foldl_snd eos best (List.range best.yseq.length) ([], false)

/-- C3 (amended): the repetition test of the source (lines 182-187) is
commented out, so `prev_repeat` can never become true: the fold of lines
169-188 returns the flag it started with (`False`), and the loop body of
`process_one_block` can never leave via the repetition `break` of line 188
— a streaming block whose hypothesis repeats an earlier token is not
deferred on that account (deferral happens only when a hypothesis emits EOS
in a non-final block). -/
theorem C3_amended_repetition_guard_disabled :
    (∀ (eos : ℕ) (best : BatchHyps), (scanLocalEnded eos best).2 = false) ∧
    (∀ (env : OnlineEnv) (h : List ℕ) (maxlen : ℕ) (maxlenratio : ℚ)
       (is_final : Bool) (st : PobState),
       (pob_body env h maxlen maxlenratio is_final st).isRepeatBreak = false) := by
  refine ⟨scanLocalEnded_snd, fun env h maxlen maxlenratio is_final st => ?_⟩
  unfold pob_body
  simp only [scanLocalEnded_snd, Bool.false_eq_true, if_false]
  repeat' split
  all_goals rfl

/-- C3 counterexample: in streaming mode (`is_final = false`) a block whose
best hypothesis ends with a token already present in the uncommitted region
is NOT deferred: the loop body commits (advances `process_idx` and replaces
the running hypotheses) instead of abandoning the step. -/
theorem C3_counterexample :
    hasRepeatRow repBest 0 = true ∧
    pob_body repEnv [5] 10 0 false repSt =
      StepOut.next
        { running_hyps := repBest, prev_hyps := some repBest,
          ended_hyps := [], process_idx := 1 } := by
  exact ⟨by decide, rfl⟩

theorem sortDescBy_take_idem {α : Type} (key : α → ℚ) (l : List α) (n : ℕ) :
    sortDescBy key ((sortDescBy key l).take n) = (sortDescBy key l).take n :=
  sortDescBy_of_sorted key _ (sorted_take (sortDescBy_sorted key l) n)

/-- C6: assembly is idempotent.  The online `assemble_hyps` and the
transducer N-best selection both sort by score, descending and stable
(Python's `sorted(..., reverse=True)`); sorting an already-sorted list is
the identity, so re-assembling an assembled set returns it unchanged, with
the same ordering and the same top-N. -/
theorem C6_assembly_idempotent :
    (∀ (l s : List OHyp), assemble_hyps l = Except.ok s →
        assemble_hyps s = Except.ok s) ∧
    (∀ (normscore : Bool) (nbest : ℕ) (kept : List THyp),
        dbsNbest normscore nbest (dbsNbest normscore nbest kept) =
          dbsNbest normscore nbest kept) := by
  constructor
  · intro l s hls
    unfold assemble_hyps at hls ⊢
    by_cases h0 : (sortDescBy (fun h => h.score) l).length = 0
    · rw [if_pos h0] at hls
      exact absurd hls (by simp)
    · rw [if_neg h0] at hls
      cases hls
      rw [sortDescBy_idem, if_neg h0]
  · intro normscore nbest kept
    cases normscore <;>
      simp [dbsNbest, sortDescBy_take_idem, List.take_take]

theorem C6_witness :
    assemble_hyps w6list = Except.ok w6sorted ∧
    assemble_hyps w6sorted = Except.ok w6sorted :=
  ⟨rfl, C6_assembly_idempotent.1 w6list w6sorted rfl⟩

/-- C5: every non-blank child that `default_beam_search` pushes onto the
running set is obtained by appending a token `k` and carries the score
`S₀ + joint_log_prob(k) + lm_weight · lm_log_prob(k)` (the LM term present
exactly when an LM is supplied) — the weighted sum of every active scorer's
log-probability on top of the parent score, with no contribution dropped. -/
theorem C5_child_score_is_weighted_scorer_sum
    (dec : TDecoder) (rnnlm : Option TRnnlm) (lm_weight : ℚ) (hi : ℕ)
    (parent c : THyp)
    (hc : c ∈ (dbsChildren dec rnnlm lm_weight hi parent).2) :
    ∃ k, k < dec.odim ∧ k ≠ dec.blank ∧ c.yseq = parent.yseq ++ [k] ∧
      c.score = specChildScore dec rnnlm lm_weight hi parent k := by
  unfold dbsChildren at hc
  simp only [List.mem_filterMap, List.mem_range] at hc
  obtain ⟨k, hk, hck⟩ := hc
  by_cases hb : k = dec.blank
  · rw [if_pos hb] at hck
    exact absurd hck (by simp)
  · rw [if_neg hb] at hck
    refine ⟨k, hk, hb, ?_⟩
    cases rnnlm with
    | none =>
      cases hck
      exact ⟨rfl, by simp [specChildScore]⟩
    | some lm =>
      cases hck
      exact ⟨rfl, by simp [specChildScore, add_assoc]⟩

theorem w5child_mem :
    w5child ∈ (dbsChildren w5dec (some w5lm) 2 4 w5parent).2 := by
  simp [dbsChildren, w5dec, w5lm, w5parent, w5child, List.range_succ]
  norm_num

theorem filterMap_ite_range {α : Type} (f : ℕ → α) (b : ℕ) :
    ∀ n : ℕ,
      (List.range n).filterMap (fun k => if k = b then some (f k) else none) =
        if b < n then [f b] else []
  | 0 => by simp
  | n + 1 => by
    rw [List.range_succ, List.filterMap_append, filterMap_ite_range f b n]
    by_cases hb : b < n
    · have hnb : ¬ n = b := by omega
      have hb' : b < n + 1 := by omega
      simp [hb, hnb, hb']
    · by_cases he : n = b
      · subst he
        simp [hb]
      · have hb' : ¬ b < n + 1 := by omega
        simp [hb, he, hb']

theorem dbsChildren_fst_length_le (dec : TDecoder) (rnnlm : Option TRnnlm)
    (lmw : ℚ) (hi : ℕ) (new_hyp : THyp) :
    (dbsChildren dec rnnlm lmw hi new_hyp).1.length ≤ 1 := by
  have h : (dbsChildren dec rnnlm lmw hi new_hyp).1 =
      (List.range dec.odim).filterMap (fun k =>
        if k = dec.blank then
          some { new_hyp with
                 score := new_hyp.score + dec.jointLp hi (dec.fosY new_hyp) k }
        else none) := rfl
  rw [h, filterMap_ite_range]
  split <;> simp

theorem dbsWhile_ok_length (dec : TDecoder) (rnnlm : Option TRnnlm) (lmw : ℚ)
    (hi k_range : ℕ) :
    ∀ (fuel : ℕ) (hyps kept res : List THyp),
      dbsWhile dec rnnlm lmw hi k_range fuel hyps kept = Except.ok res →
      kept.length < k_range → res.length = k_range
  | 0, hyps, kept, res => by
    intro hok
    simp [dbsWhile] at hok
  | fuel + 1, hyps, kept, res => by
    intro hok hlt
    simp only [dbsWhile] at hok
    split at hok
    · exact absurd hok (by simp)
    · split at hok
      · exact absurd hok (by simp)
      · split at hok
        · cases hok
          have h1 := dbsChildren_fst_length_le dec rnnlm lmw hi
            (hyps.getD (firstMaxIdx hyps) default)
          rename_i hge
          rw [List.length_append] at hge ⊢
          omega
        · rename_i hnge
          refine dbsWhile_ok_length _ _ _ _ _ fuel _ _ res hok ?_
          rw [List.length_append]
          rw [List.length_append] at hnge
          omega

theorem tsdMergeBlank_length_le (lse : ℚ → ℚ → ℚ) :
    ∀ (A : List THyp) (c : THyp),
      (tsdMergeBlank lse A c).length ≤ A.length + 1
  | [], c => by simp [tsdMergeBlank]
  | a :: A, c => by
    unfold tsdMergeBlank
    split
    · simp
    · have := tsdMergeBlank_length_le lse A c
      simp only [List.length_cons]
      omega

theorem recombine_length_le (lse : ℚ → ℚ → ℚ) (l : List THyp) :
    (recombine_hyps lse l).length ≤ l.length := by
  suffices h : ∀ (l acc : List THyp),
      (l.foldl (tsdMergeBlank lse) acc).length ≤ acc.length + l.length by
    simpa [recombine_hyps] using h l []
  intro l
  induction l with
  | nil => simp
  | cons c l ih =>
    intro acc
    rw [List.foldl_cons]
    have h1 := ih (tsdMergeBlank lse acc c)
    have h2 := tsdMergeBlank_length_le lse acc c
    simp only [List.length_cons]
    omega

/-- C4: after every STEPPING iteration of each search variant the carried
beam has at most `min(beam_size, vocabulary_size)` hypotheses: the default
transducer beam search's inner loop exits with exactly `k_range` kept
hypotheses (so at most that many, given a positive beam); the
time-synchronous, alignment-length-synchronous and N-step-constrained
frames all end in a `sorted(...)[:w_range]` prune (followed, for the
alignment-synchronous variant, by a merge that never grows the list). -/
theorem C4_beam_width_bound :
    (∀ (dec : TDecoder) (rnnlm : Option TRnnlm) (lmw : ℚ) (hi : ℕ)
       (beam fuel : ℕ) (kept res : List THyp),
       0 < min beam dec.odim →
       dbsFrame dec rnnlm lmw hi (min beam dec.odim) fuel kept = Except.ok res →
       res.length ≤ min beam dec.odim) ∧
    (∀ (dec : TDecoder) (rnnlm : Option TRnnlm) (lmw : ℚ) (lse : ℚ → ℚ → ℚ)
       (hi : ℕ) (beam max_sym_exp : ℕ) (B : List THyp),
       (tsdFrame dec rnnlm lmw lse hi (min beam dec.odim) max_sym_exp B).length ≤
         min beam dec.odim) ∧
    (∀ (dec : TDecoder) (rnnlm : Option TRnnlm) (lmw : ℚ) (lse : ℚ → ℚ → ℚ)
       (h : List ℕ) (beam i : ℕ) (B final : List THyp),
       (alsdIter dec rnnlm lmw lse h (min beam dec.odim) i B final).1.length ≤
         min beam dec.odim) ∧
    (∀ (dec : NDecoder) (useLm : Bool) (lmw : ℚ) (lse : ℚ → ℚ → ℚ)
       (hi : ℕ) (beam nstep pAlpha : ℕ) (kept : List NHyp),
       (nscFrame dec useLm lmw lse hi (min beam dec.odim) nstep pAlpha kept).length ≤
         min beam dec.odim) := by
  refine ⟨?_, ?_, ?_, ?_⟩
  · intro dec rnnlm lmw hi beam fuel kept res hpos hok
    exact le_of_eq (dbsWhile_ok_length dec rnnlm lmw hi _ fuel kept [] res hok hpos)
  · intro dec rnnlm lmw lse hi beam mse B
    simp [tsdFrame, List.length_take]
  · intro dec rnnlm lmw lse h beam i B final
    unfold alsdIter
    refine le_trans (recombine_length_le lse _) ?_
    simp [List.length_take]
  · intro dec useLm lmw lse hi beam nstep pAlpha kept
    simp [nscFrame, List.length_take]

theorem wDec_frame :
    dbsFrame wDec none 0 0 (min 2 wDec.odim) 4 [initTHyp wDec] =
      Except.ok wRes := by
  simp [dbsFrame, dbsWhile, dbsChildren, firstMaxIdx, wDec, wRes, initTHyp,
    List.range_succ]
  norm_num

theorem C4_witness :
    0 < min 2 wDec.odim ∧
    dbsFrame wDec none 0 0 (min 2 wDec.odim) 4 [initTHyp wDec] =
      Except.ok wRes ∧
    wRes.length ≤ min 2 wDec.odim :=
  ⟨by decide, wDec_frame,
   C4_beam_width_bound.1 wDec none 0 0 2 4 [initTHyp wDec] wRes
     (by decide) wDec_frame⟩

/-- Every member of a merged blank-advance set either keeps the output
sequence of an existing member (in-place score merge) or carries the
inserted candidate's sequence. -/
theorem tsdMergeBlank_mem_yseq (lse : ℚ → ℚ → ℚ) :
    ∀ (A : List THyp) (c x : THyp), x ∈ tsdMergeBlank lse A c →
      x.yseq ∈ A.map (fun a => a.yseq) ∨ x.yseq = c.yseq
  | [], c, x => by
    intro hx
    simp [tsdMergeBlank] at hx
    simp [hx]
  | a :: A, c, x => by
    intro hx
    unfold tsdMergeBlank at hx
    by_cases he : a.yseq = c.yseq
    · rw [if_pos he] at hx
      rcases List.mem_cons.1 hx with h | h
      · subst h
        simp
      · exact Or.inl (by simp [List.mem_map]; exact Or.inr ⟨x, h, rfl⟩)
    · rw [if_neg he] at hx
      rcases List.mem_cons.1 hx with h | h
      · subst h
        simp
      · rcases tsdMergeBlank_mem_yseq lse A c x h with h' | h'
        · exact Or.inl (by simp [List.mem_map] at h' ⊢; tauto)
        · exact Or.inr h'

/-- Inserting into the blank-advance set preserves distinctness of the
output sequences: equal sequences are merged, never duplicated. -/
theorem tsdMergeBlank_nodup (lse : ℚ → ℚ → ℚ) :
    ∀ (A : List THyp) (c : THyp),
      (A.map (fun a => a.yseq)).Nodup →
      ((tsdMergeBlank lse A c).map (fun a => a.yseq)).Nodup
  | [], c, _ => by simp [tsdMergeBlank]
  | a :: A, c, h => by
    unfold tsdMergeBlank
    by_cases he : a.yseq = c.yseq
    · rw [if_pos he]
      simpa using h
    · rw [if_neg he]
      simp only [List.map_cons, List.nodup_cons] at h ⊢
      refine ⟨?_, tsdMergeBlank_nodup lse A c h.2⟩
      intro hmem
      rcases List.mem_map.1 hmem with ⟨x, hx, hxy⟩
      rcases tsdMergeBlank_mem_yseq lse A c x hx with h' | h'
      · exact h.1 (hxy ▸ h')
      · exact he (by rw [← hxy, h'])

theorem lenBounded_mono {B : List THyp} {k k' : ℕ} {x : THyp}
    (h : lenBounded B k x) (hk : k ≤ k') : lenBounded B k' x := by
  rcases h with ⟨b, hb, hlen⟩
  exact ⟨b, hb, by omega⟩

theorem tsdMergeBlank_lenBounded (lse : ℚ → ℚ → ℚ) {B : List THyp} {k : ℕ}
    (A : List THyp) (c x : THyp) (hx : x ∈ tsdMergeBlank lse A c)
    (hA : ∀ a ∈ A, lenBounded B k a) (hc : lenBounded B k c) :
    lenBounded B k x := by
  rcases tsdMergeBlank_mem_yseq lse A c x hx with h | h
  · rcases List.mem_map.1 h with ⟨a, ha, hay⟩
    rcases hA a ha with ⟨b, hb, hlen⟩
    exact ⟨b, hb, by rw [hay] at hlen; exact hlen⟩
  · rcases hc with ⟨b, hb, hlen⟩
    exact ⟨b, hb, by rw [h]; exact hlen⟩

/-- New members of the expansion list `D` append exactly one token to the
processed hypothesis's sequence. -/
theorem tsdProcessHyp_snd_mem (dec : TDecoder) (rnnlm : Option TRnnlm)
    (lmw : ℚ) (lse : ℚ → ℚ → ℚ) (hi v mse : ℕ)
    (acc : List THyp × List THyp) (c x : THyp)
    (hx : x ∈ (tsdProcessHyp dec rnnlm lmw lse hi v mse acc c).2) :
    x ∈ acc.2 ∨ ∃ k, x.yseq = c.yseq ++ [k] := by
  unfold tsdProcessHyp at hx
  simp only at hx
  rcases List.mem_append.1 hx with h | h
  · exact Or.inl h
  · right
    split at h
    · rcases List.mem_filterMap.1 h with ⟨k, _, hk⟩
      by_cases h0 : k = 0
      · rw [if_pos h0] at hk
        exact absurd hk (by simp)
      · rw [if_neg h0] at hk
        cases rnnlm with
        | none => cases hk; exact ⟨k, rfl⟩
        | some lm => cases hk; exact ⟨k, rfl⟩
    · exact absurd h (by simp)

/-- First component of one hypothesis-processing step: the blank-advance
set is the old one with the blank candidate merged in. -/
theorem tsdProcessHyp_fst (dec : TDecoder) (rnnlm : Option TRnnlm)
    (lmw : ℚ) (lse : ℚ → ℚ → ℚ) (hi v mse : ℕ)
    (acc : List THyp × List THyp) (c : THyp) :
    (tsdProcessHyp dec rnnlm lmw lse hi v mse acc c).1 =
      tsdMergeBlank lse acc.1
        { c with score := c.score + dec.jointLp hi (dec.fosY c) 0 } := rfl

theorem tsdFoldl_bound (dec : TDecoder) (rnnlm : Option TRnnlm) (lmw : ℚ)
    (lse : ℚ → ℚ → ℚ) (hi v mse : ℕ) (B : List THyp) (k : ℕ) :
    ∀ (C : List THyp) (acc : List THyp × List THyp),
      (∀ a ∈ acc.1, lenBounded B k a) →
      (∀ d ∈ acc.2, lenBounded B (k + 1) d) →
      (∀ c ∈ C, lenBounded B k c) →
      (∀ x ∈ (C.foldl (tsdProcessHyp dec rnnlm lmw lse hi v mse) acc).1,
          lenBounded B k x) ∧
      (∀ x ∈ (C.foldl (tsdProcessHyp dec rnnlm lmw lse hi v mse) acc).2,
          lenBounded B (k + 1) x)
  | [], acc => fun hA hD _ => ⟨hA, hD⟩
  | c :: C, acc => by
    intro hA hD hC
    rw [List.foldl_cons]
    have hc : lenBounded B k c := hC c (List.mem_cons_self _ _)
    refine tsdFoldl_bound dec rnnlm lmw lse hi v mse B k C _ ?_ ?_
      (fun c' hc' => hC c' (List.mem_cons_of_mem _ hc'))
    · intro a ha
      rw [tsdProcessHyp_fst] at ha
      refine tsdMergeBlank_lenBounded lse acc.1 _ a ha hA ?_
      rcases hc with ⟨b, hb, hlen⟩
      exact ⟨b, hb, hlen⟩
    · intro d hd
      rcases tsdProcessHyp_snd_mem dec rnnlm lmw lse hi v mse acc c d hd with h | ⟨k', hk'⟩
      · exact hD d h
      · rcases hc with ⟨b, hb, hlen⟩
        refine ⟨b, hb, ?_⟩
        rw [hk', List.length_append]
        simp only [List.length_cons, List.length_nil]
        omega

theorem tsdFoldl_nodup (dec : TDecoder) (rnnlm : Option TRnnlm) (lmw : ℚ)
    (lse : ℚ → ℚ → ℚ) (hi v mse : ℕ) :
    ∀ (C : List THyp) (acc : List THyp × List THyp),
      (acc.1.map (fun a => a.yseq)).Nodup →
      (((C.foldl (tsdProcessHyp dec rnnlm lmw lse hi v mse) acc).1.map
          (fun a => a.yseq)).Nodup)
  | [], _ => fun h => h
  | c :: C, acc => by
    intro h
    rw [List.foldl_cons]
    refine tsdFoldl_nodup dec rnnlm lmw lse hi v mse C _ ?_
    rw [tsdProcessHyp_fst]
    exact tsdMergeBlank_nodup lse acc.1 _ h

theorem tsdRounds_bound (dec : TDecoder) (rnnlm : Option TRnnlm) (lmw : ℚ)
    (lse : ℚ → ℚ → ℚ) (hi w mse : ℕ) (B : List THyp) :
    ∀ (m v k : ℕ) (A C : List THyp),
      (∀ a ∈ A, lenBounded B k a) →
      (∀ c ∈ C, lenBounded B k c) →
      ∀ x ∈ (tsdRounds dec rnnlm lmw lse hi w mse v m (A, C)).1,
        lenBounded B (k + m) x
  | 0, v, k, A, C => by
    intro hA _ x hx
    exact lenBounded_mono (hA x hx) (by omega)
  | m + 1, v, k, A, C => by
    intro hA hC x hx
    unfold tsdRounds at hx
    simp only at hx
    have hfold := tsdFoldl_bound dec rnnlm lmw lse hi v mse B k C (A, [])
      hA (by intro d hd; exact absurd hd (by simp)) hC
    have h1 : ∀ a ∈ (C.foldl (tsdProcessHyp dec rnnlm lmw lse hi v mse) (A, [])).1,
        lenBounded B (k + 1) a :=
      fun a ha => lenBounded_mono (hfold.1 a ha) (by omega)
    have h2 : ∀ c ∈ ((sortDescBy (fun x => x.score)
        (C.foldl (tsdProcessHyp dec rnnlm lmw lse hi v mse) (A, [])).2).take w),
        lenBounded B (k + 1) c := by
      intro c hcmem
      exact hfold.2 c (mem_sortDescBy.1 (List.take_subset _ _ hcmem))
    have := tsdRounds_bound dec rnnlm lmw lse hi w mse B m (v + 1) (k + 1) _ _ h1 h2 x hx
    exact lenBounded_mono this (by omega)

theorem tsdRounds_nodup (dec : TDecoder) (rnnlm : Option TRnnlm) (lmw : ℚ)
    (lse : ℚ → ℚ → ℚ) (hi w mse : ℕ) :
    ∀ (m v : ℕ) (A C : List THyp),
      (A.map (fun a => a.yseq)).Nodup →
      ((tsdRounds dec rnnlm lmw lse hi w mse v m (A, C)).1.map
        (fun a => a.yseq)).Nodup
  | 0, _, _, _ => fun h => h
  | m + 1, v, A, C => by
    intro h
    unfold tsdRounds
    simp only
    exact tsdRounds_nodup dec rnnlm lmw lse hi w mse m (v + 1) _ _
      (tsdFoldl_nodup dec rnnlm lmw lse hi v mse C (A, []) h)

/-- C7: for each input frame the time-synchronous search performs at most
`max_sym_exp` (= `nstep`) symbol expansions — every hypothesis of the new
beam extends some hypothesis of the previous beam by at most `max_sym_exp`
tokens — and hypotheses with identical output sequences are merged: the
blank-advance set `A` never holds two entries with the same sequence, and
inserting a candidate whose sequence is already present replaces the stored
score by the log-sum-exp (`lse`) of the two scores. -/
theorem C7_time_sync_expansion_bound_and_merge :
    (∀ (dec : TDecoder) (rnnlm : Option TRnnlm) (lmw : ℚ)
       (lse : ℚ → ℚ → ℚ) (hi w_range max_sym_exp : ℕ) (B : List THyp),
       ∀ x ∈ tsdFrame dec rnnlm lmw lse hi w_range max_sym_exp B,
         ∃ b ∈ B, x.yseq.length ≤ b.yseq.length + max_sym_exp) ∧
    (∀ (dec : TDecoder) (rnnlm : Option TRnnlm) (lmw : ℚ)
       (lse : ℚ → ℚ → ℚ) (hi w_range max_sym_exp : ℕ) (B : List THyp),
       ((tsdRounds dec rnnlm lmw lse hi w_range max_sym_exp 0 max_sym_exp
          ([], B)).1.map (fun a => a.yseq)).Nodup) ∧
    (∀ (lse : ℚ → ℚ → ℚ) (a cand : THyp) (A : List THyp),
       a.yseq = cand.yseq →
       tsdMergeBlank lse (a :: A) cand =
         { a with score := lse a.score cand.score } :: A) := by
  refine ⟨?_, ?_, ?_⟩
  · intro dec rnnlm lmw lse hi w mse B x hx
    unfold tsdFrame at hx
    simp only at hx
    have hx' := mem_sortDescBy.1 (List.take_subset _ _ hx)
    have := tsdRounds_bound dec rnnlm lmw lse hi w mse B mse 0 0 [] B
      (by intro a ha; exact absurd ha (by simp))
      (fun c hc => ⟨c, hc, by omega⟩) x hx'
    exact lenBounded_mono this (by omega)
  · intro dec rnnlm lmw lse hi w mse B
    exact tsdRounds_nodup dec rnnlm lmw lse hi w mse mse 0 [] B (by simp)
  · intro lse a cand A h
    simp [tsdMergeBlank, h]

theorem w7mem :
    initTHyp w7dec ∈
      tsdFrame w7dec none 0 (fun a b => a + b) 9 2 1 [initTHyp w7dec] := by
  simp [tsdFrame, tsdRounds, tsdProcessHyp, tsdMergeBlank, initTHyp, w7dec,
    sortDescBy, List.insertionSort, List.orderedInsert, List.range_succ]

theorem C7_witness :
    initTHyp w7dec ∈
      tsdFrame w7dec none 0 (fun a b => a + b) 9 2 1 [initTHyp w7dec] ∧
    (∃ b ∈ [initTHyp w7dec],
        (initTHyp w7dec).yseq.length ≤ b.yseq.length + 1) ∧
    w7a.yseq = w7c.yseq ∧
    tsdMergeBlank (fun a b => a + b) (w7a :: []) w7c =
      { w7a with score := (fun a b => a + b) w7a.score w7c.score } :: [] :=
  ⟨w7mem,
   C7_time_sync_expansion_bound_and_merge.1 w7dec none 0 (fun a b => a + b)
     9 2 1 [initTHyp w7dec] (initTHyp w7dec) w7mem,
   rfl,
   C7_time_sync_expansion_bound_and_merge.2.2 (fun a b => a + b) w7a w7c [] rfl⟩

theorem alsdFold_final (dec : TDecoder) (rnnlm : Option TRnnlm) (lmw : ℚ)
    (h : List ℕ) (i : ℕ) :
    ∀ (B : List THyp) (acc : List THyp × List THyp),
      (B.foldl (alsdProcessHyp dec rnnlm lmw h i) acc).2 =
        acc.2 ++ B.filterMap (alsdFinalCand dec h i)
  | [], acc => by simp
  | hyp :: B, acc => by
    rw [List.foldl_cons, List.filterMap_cons,
      alsdFold_final dec rnnlm lmw h i B]
    cases hidx : alsdFrameIdx h.length i hyp with
    | none =>
      unfold alsdProcessHyp alsdFinalCand
      rw [hidx]
    | some t =>
      unfold alsdProcessHyp alsdFinalCand
      rw [hidx]
      by_cases ht : t = (h.length : ℤ) - 1
      · simp [ht]
      · simp [ht]

/-- C8 (amended): the hypotheses expanded at outer iteration `i` of the
alignment-length-synchronous search are exactly those whose frame index
`t = i - u + 1` does not exceed the last frame, so every expanded
hypothesis satisfies `t + u = i + 1` (all hypotheses of one iteration
share the same total alignment length `i + 1`, not `i`); a hypothesis
skipped at iteration `i` is exactly one whose frame index would pass the
last frame; the finalist pool collects exactly the blank-extended
candidates of hypotheses evaluated at the last frame; and when the pool is
non-empty the N-best are drawn from it. -/
theorem C8_amended_alignment_position :
    (∀ (h_length i : ℕ) (hyp : THyp) (t : ℤ),
        alsdFrameIdx h_length i hyp = some t →
        t + ((hyp.yseq.length - 1 : ℕ) : ℤ) = (i : ℤ) + 1) ∧
    (∀ (h_length i : ℕ) (hyp : THyp),
        alsdFrameIdx h_length i hyp = none →
        (h_length : ℤ) - 1 <
          (i : ℤ) - ((hyp.yseq.length - 1 : ℕ) : ℤ) + 1) ∧
    (∀ (dec : TDecoder) (rnnlm : Option TRnnlm) (lmw : ℚ) (h : List ℕ)
        (i : ℕ) (B final : List THyp),
        (B.foldl (alsdProcessHyp dec rnnlm lmw h i) ([], final)).2 =
          final ++ B.filterMap (alsdFinalCand dec h i)) ∧
    (∀ (nbest : ℕ) (B final : List THyp), final ≠ [] →
        alsdSelect nbest B final =
          (sortDescBy (fun x => x.score) final).take nbest) := by
  refine ⟨?_, ?_, ?_, ?_⟩
  · intro h_length i hyp t ht
    simp only [alsdFrameIdx] at ht
    split at ht
    · exact absurd ht (by simp)
    · cases ht
      omega
  · intro h_length i hyp ht
    simp only [alsdFrameIdx] at ht
    split at ht
    · rename_i hlt
      exact hlt
    · exact absurd ht (by simp)
  · intro dec rnnlm lmw h i B final
    exact alsdFold_final dec rnnlm lmw h i B ([], final)
  · intro nbest B final hne
    unfold alsdSelect
    rw [if_neg (by simpa using hne)]

/-- C8 counterexample: at outer iteration `i = 0` with three input frames,
the seed hypothesis (`u = 0`) is expanded — its frame index is
`t = i - u + 1 = 1` — but `i ≠ t + u` (`0 ≠ 1`): the source's combined
alignment position satisfies `t + u = i + 1`, not `i = t + u`. -/
theorem C8_counterexample :
    alsdFrameIdx 3 0 w8hyp0 = some 1 ∧
    ¬ ((0 : ℤ) = 1 + ((w8hyp0.yseq.length - 1 : ℕ) : ℤ)) :=
  ⟨rfl, by decide⟩

theorem C8_witness :
    alsdFrameIdx 3 2 w8hyp1 = some 2 ∧
    (2 : ℤ) + ((w8hyp1.yseq.length - 1 : ℕ) : ℤ) = (2 : ℤ) + 1 ∧
    ([w8fin] : List THyp) ≠ [] ∧
    alsdSelect 1 [] [w8fin] =
      (sortDescBy (fun x => x.score) [w8fin]).take 1 :=
  ⟨rfl,
   C8_amended_alignment_position.1 3 2 w8hyp1 2 rfl,
   by simp,
   C8_amended_alignment_position.2.2.2 1 [] [w8fin] (by simp)⟩

theorem C5_witness :
    w5child ∈ (dbsChildren w5dec (some w5lm) 2 4 w5parent).2 ∧
    ∃ k, k < w5dec.odim ∧ k ≠ w5dec.blank ∧
      w5child.yseq = w5parent.yseq ++ [k] ∧
      w5child.score = specChildScore w5dec (some w5lm) 2 4 w5parent k :=
  ⟨w5child_mem,
   C5_child_score_is_weighted_scorer_sum w5dec (some w5lm) 2 4 w5parent w5child
     w5child_mem⟩

end Espnet
